import Mathlib

/-!
Verification of `grab-judicial-nominees.py`.

The script is embedded shallowly:
* the parsed HTML fragment handed to `html_to_text` is modelled as a list of
  `Tag`s in document order, each carrying its tag name and its descendant
  text nodes (`BeautifulSoup.find_all` restricted to p/h1..h6 is a filter
  over that list, and `get_text(separator=" ", strip=True)` strips each text
  node, drops the empty ones and joins the rest with single spaces);
* Python strings are modelled by `String` / `List Char`, the regex
  `/nominee/([^/]+)/?$` used by `slugify_name` is compiled by hand into a
  leftmost, greedy matcher with the Python semantics of `$` (end of input,
  or just before one final newline);
* the browser is modelled by the sequence of rendered page states the
  pagination loop observes and by an oracle mapping each profile URL to the
  outcome of visiting it (an exception, a missing container, or a container
  with its inner markup);
* the filesystem is a partial map from file names to contents.
-/

/-- A parsed HTML element: its tag name and its descendant text nodes, in
document order. -/
structure Tag where
  name : String
  strings : List String
deriving DecidableEq

/-- Python `str.strip()` on one text node. -/
def pyStrip (s : String) : String :=
  String.mk ((s.data.dropWhile Char.isWhitespace).reverse.dropWhile Char.isWhitespace).reverse

/-- Python `sep.join(items)`. -/
def sepJoin (sep : String) : List String → String
  | [] => ""
  | [s] => s
  | s :: rest => s ++ sep ++ sepJoin sep rest

/-- `tag.get_text(separator=" ", strip=True)`: strip every descendant text
node, drop the ones that become empty, join the rest with single spaces. -/
def getText (t : Tag) : String :=
  sepJoin " " ((t.strings.map pyStrip).filter (fun s => s ≠ ""))

/-- The tag names selected by `soup.find_all(["p","h1","h2","h3","h4","h5","h6"])`. -/
def targetNames : List String := ["p", "h1", "h2", "h3", "h4", "h5", "h6"]

/-- `soup.find_all([...])`: the selected elements in document order. -/
def findAll (doc : List Tag) : List Tag :=
  doc.filter (fun t => targetNames.contains t.name)

/-- `tag.name.lower().startswith("h")`. -/
def isHeading (t : Tag) : Bool :=
  match t.name.data.map Char.toLower with
  | [] => false
  | c :: _ => c = 'h'

/-- The loop body of `html_to_text`: skip empty text; a heading is preceded
by a blank line when output already exists; every emitted block is followed
by a blank line. -/
def processTag (lines : List String) (t : Tag) : List String :=
  if getText t = "" then lines
  else if isHeading t then
    (if lines.isEmpty then lines else lines ++ [""]) ++ [getText t, ""]
  else lines ++ [getText t, ""]

/-- `while lines and not lines[-1]: lines.pop()`. -/
def stripTrailingBlanks (lines : List String) : List String :=
  (lines.reverse.dropWhile (fun s => s = "")).reverse

/-- The list of output lines of `html_to_text` before the final join. -/
def htmlLines (doc : List Tag) : List String :=
  stripTrailingBlanks ((findAll doc).foldl processTag [])

/-- `html_to_text`: convert the content markup to clean plain text. -/
def html_to_text (doc : List Tag) : String :=
  sepJoin "\n" (htmlLines doc)

/-! ## Slug extraction (`slugify_name`) -/

/-- The literal part `/nominee/` of the regex. -/
def litNominee : List Char := ['/', 'n', 'o', 'm', 'i', 'n', 'e', 'e', '/']

example : litNominee = "/nominee/".data := by decide

/-- Python `$` (no MULTILINE): matches at the end of the input or just
before a single final newline. -/
def dollarMatch (cs : List Char) : Bool :=
  match cs with
  | [] => true
  | [c] => c = '\n'
  | _ => false

/-- The regex tail `/?$`. -/
def slashDollar (cs : List Char) : Bool :=
  dollarMatch cs ||
    (match cs with
     | c :: rest => c = '/' && dollarMatch rest
     | [] => false)

/-- Greedy match of `([^/]+)/?$` against the whole remaining input,
returning the captured group. -/
def matchGroup : List Char → Option (List Char)
  | [] => none
  | c :: cs =>
    if c = '/' then none
    else
      match matchGroup cs with
      | some g => some (c :: g)
      | none => if slashDollar cs then some [c] else none

/-- Boolean test that `pat` begins `cs`. -/
def startsWithChars : List Char → List Char → Bool
  | [], _ => true
  | _ :: _, [] => false
  | a :: as, b :: bs => a = b && startsWithChars as bs

/-- Try the whole regex `/nominee/([^/]+)/?$` at the current position. -/
def tryNominee (cs : List Char) : Option (List Char) :=
  if startsWithChars litNominee cs then matchGroup (cs.drop litNominee.length) else none

/-- `re.search`: try the pattern at each position, leftmost first. -/
def searchNominee : List Char → Option (List Char)
  | [] => none
  | c :: cs =>
    match tryNominee (c :: cs) with
    | some g => some g
    | none => searchNominee cs

/-- Python `str.rstrip("/")`. -/
def rstripSlash (cs : List Char) : List Char :=
  (cs.reverse.dropWhile (fun c => c = '/')).reverse

/-- Python `str.split("/")`. -/
def splitSlash : List Char → List (List Char)
  | [] => [[]]
  | c :: cs =>
    if c = '/' then [] :: splitSlash cs
    else
      match splitSlash cs with
      | h :: t => (c :: h) :: t
      | [] => [[c]]

/-- `slugify_name`: the regex capture when `/nominee/<slug>/?` ends the URL,
otherwise the last non-empty path segment, otherwise `"unknown"`. -/
def slugify_name (url : String) : String :=
  match searchNominee url.data with
  | some g => String.mk g
  | none =>
    match ((splitSlash (rstripSlash url.data)).filter (fun p => p ≠ [])).getLast? with
    | some p => String.mk p
    | none => "unknown"

example : slugify_name "https://example.org/nominee/katie-lane/" = "katie-lane" := by decide
example : slugify_name "https://afj.org/nominee/katie-lane" = "katie-lane" := by decide
example : slugify_name "https://example.org/foo/bar" = "bar" := by decide
example : slugify_name "https://example.org/foo/bar///" = "bar" := by decide
example : slugify_name "" = "unknown" := by decide
example : slugify_name "///" = "unknown" := by decide
example : html_to_text [⟨"h2", ["A"]⟩, ⟨"h2", ["B"]⟩] = "A\n\n\nB" := by decide
example : html_to_text [⟨"p", ["A"]⟩, ⟨"p", ["B"]⟩] = "A\n\nB" := by decide
example : html_to_text [⟨"p", ["  hi ", "", "there  "]⟩, ⟨"p", ["   "]⟩] = "hi there" := by decide
example : html_to_text [⟨"div", ["x"]⟩] = "" := by decide

/-! ## Link collector (`collect_all_nominee_links`) -/

def BASE_URL : String := "https://afj.org"

/-- One rendered state of the listing page, as the pagination loop observes
it: the `href` attributes of the anchors matching `a.overlink1.card8-link`
(`get_attribute` may return no value), and the `a[more]` control — absent,
or present with its visibility. -/
structure PageState where
  anchors : List (Option String)
  loadMore : Option Bool
deriving DecidableEq

/-- `full = href if href.startswith("http") else BASE_URL + href`. -/
def absolutize (href : String) : String :=
  if startsWithChars "http".data href.data then href else BASE_URL ++ href

/-- The anchor scan of one loop iteration: add every truthy href, made
absolute, to the set. -/
def collectStep (links : Finset String) (st : PageState) : Finset String :=
  st.anchors.foldl
    (fun acc oh =>
      match oh with
      | some h => if h = "" then acc else insert (absolutize h) acc
      | none => acc)
    links

/-- The `while True` pagination loop: scan the current state; stop when the
load-more control is absent or not visible; otherwise click it and continue
with the next rendered state.  Also records which states had their control
clicked. -/
def collectGo : Finset String → List PageState → List PageState → Finset String × List PageState
  | links, clicked, [] => (links, clicked)
  | links, clicked, st :: rest =>
    match st.loadMore with
    | some true => collectGo (collectStep links st) (clicked ++ [st]) rest
    | _ => (collectStep links st, clicked)

/-- `collect_all_nominee_links`: the accumulated set, returned as
`sorted(links)`. -/
def collect_all_nominee_links (states : List PageState) : List String :=
  Finset.sort (fun a b => a ≤ b) (collectGo ∅ [] states).1

/-! ## Profile scraper (`scrape_nominee`) -/

/-- The exceptions the `try` block can see. -/
inductive PyError
  | timeout
  | networkFailure
  | detachedFrame
  | other
deriving DecidableEq

/-- What visiting one profile URL does: raise an exception somewhere inside
the `try` block, find no `div.body1` container, or find the container with
the given inner markup. -/
inductive PageResult
  | raise (e : PyError)
  | noContainer
  | container (doc : List Tag)
deriving DecidableEq

/-- The body of `scrape_nominee`: an exception escapes as `Except.error`;
a missing container returns no text; otherwise the extracted text. -/
def scrapeBody : PageResult → Except PyError (Option String)
  | .raise e => .error e
  | .noContainer => .ok none
  | .container doc => .ok (some (html_to_text doc))

/-- `scrape_nominee`: the `try/except` wrapper — every exception from the
body is caught and turned into `None`. -/
def scrape_nominee (pr : PageResult) : Option String :=
  match scrapeBody pr with
  | .error _ => none
  | .ok r => r

/-! ## Orchestrator (`main`) -/

/-- The output directory: a partial map from file name to file contents. -/
abbrev FS := String → Option String

/-- The output file name for a URL: `f"{slug}.txt"`. -/
def outName (url : String) : String := slugify_name url ++ ".txt"

/-- `out_path.write_text(text)`. -/
def fsWrite (fs : FS) (n t : String) : FS :=
  fun m => if m = n then some t else fs m

/-- Result of one iteration of the main loop: the filesystem afterwards,
whether a file was written, and whether the URL was visited. -/
structure StepOut where
  fs : FS
  wrote : Bool
  visited : Bool

/-- One iteration of the loop in `main`: skip when the output file exists
(without visiting the URL); otherwise scrape, and write only when the
returned text is truthy (present and non-empty). -/
def processUrl (web : String → PageResult) (fs : FS) (url : String) : StepOut :=
  if (fs (outName url)).isSome then ⟨fs, false, false⟩
  else
    match scrape_nominee (web url) with
    | some t => if t = "" then ⟨fs, false, true⟩ else ⟨fsWrite fs (outName url) t, true, true⟩
    | none => ⟨fs, false, true⟩

/-- Result of a whole run: the final filesystem, the files written and the
URLs visited, in order. -/
structure MainResult where
  fs : FS
  written : List String
  visited : List String

/-- The `for url in all_links` loop of `main`. -/
def mainLoop (web : String → PageResult) : FS → List String → MainResult
  | fs, [] => ⟨fs, [], []⟩
  | fs, url :: rest =>
    let s := processUrl web fs url
    let r := mainLoop web s.fs rest
    ⟨r.fs, (if s.wrote then [outName url] else []) ++ r.written,
      (if s.visited then [url] else []) ++ r.visited⟩

/-- `main`: collect all links, then scrape each in sorted order. -/
def runScrape (web : String → PageResult) (states : List PageState) (fs : FS) : MainResult :=
  mainLoop web fs (collect_all_nominee_links states)

/-! ## Helper lemmas about the orchestrator -/

lemma processUrl_preserves (web : String → PageResult) (fs : FS) (url n c : String)
    (h : fs n = some c) : (processUrl web fs url).fs n = some c := by
  unfold processUrl
  split
  · exact h
  next hex =>
    cases hscr : scrape_nominee (web url) with
    | none => simpa using h
    | some t =>
      by_cases ht : t = ""
      · simp [hscr, ht]; exact h
      · simp only [hscr, ht, if_neg ht]
        show fsWrite fs (outName url) t n = some c
        unfold fsWrite
        by_cases hn : n = outName url
        · exfalso
          apply hex
          rw [← hn, h]
          rfl
        · simp [hn, h]

lemma processUrl_skip (web : String → PageResult) (fs : FS) (url : String)
    (h : (fs (outName url)).isSome) : processUrl web fs url = ⟨fs, false, false⟩ := by
  unfold processUrl
  simp [h]

lemma mainLoop_cons (web : String → PageResult) (fs : FS) (u : String) (rest : List String) :
    mainLoop web fs (u :: rest) =
      ⟨(mainLoop web (processUrl web fs u).fs rest).fs,
        (if (processUrl web fs u).wrote then [outName u] else []) ++
          (mainLoop web (processUrl web fs u).fs rest).written,
        (if (processUrl web fs u).visited then [u] else []) ++
          (mainLoop web (processUrl web fs u).fs rest).visited⟩ := rfl

lemma mainLoop_preserves (web : String → PageResult) (urls : List String) :
    ∀ (fs : FS) (n c : String), fs n = some c → (mainLoop web fs urls).fs n = some c := by
  induction urls with
  | nil => intro fs n c h; exact h
  | cons u rest ih =>
    intro fs n c h
    rw [mainLoop_cons]
    exact ih _ n c (processUrl_preserves web fs u n c h)

lemma mainLoop_preserves_isSome (web : String → PageResult) (urls : List String)
    (fs : FS) (n : String) (h : (fs n).isSome) : ((mainLoop web fs urls).fs n).isSome := by
  cases hc : fs n with
  | none => rw [hc] at h; simp at h
  | some c => rw [mainLoop_preserves web urls fs n c hc]; rfl

lemma mainLoop_not_visited (web : String → PageResult) (urls : List String) :
    ∀ (fs : FS) (url : String), (fs (outName url)).isSome →
      url ∉ (mainLoop web fs urls).visited := by
  induction urls with
  | nil => intro fs url _ h; exact absurd h (List.not_mem_nil url)
  | cons u rest ih =>
    intro fs url h
    rw [mainLoop_cons]
    intro hmem
    rcases List.mem_append.mp hmem with h1 | h2
    · by_cases hv : (processUrl web fs u).visited
      · rw [if_pos hv] at h1
        have hu : url = u := List.mem_singleton.mp h1
        rw [processUrl_skip web fs u (hu ▸ h)] at hv
        exact Bool.noConfusion hv
      · rw [if_neg hv] at h1
        exact absurd h1 (List.not_mem_nil url)
    · have hiso : ((processUrl web fs u).fs (outName url)).isSome := by
        cases hc : fs (outName url) with
        | none => rw [hc] at h; simp at h
        | some c => rw [processUrl_preserves web fs u _ c hc]; rfl
      exact ih _ url hiso h2

/-- If a file map extends the result of one scrape step for `u`, repeating
that step on the extended map writes nothing and changes nothing. -/
lemma processUrl_stable (web : String → PageResult) (fs fs' : FS) (u : String)
    (hext : ∀ n c, (processUrl web fs u).fs n = some c → fs' n = some c) :
    (processUrl web fs' u).fs = fs' ∧ (processUrl web fs' u).wrote = false := by
  by_cases hex : (fs' (outName u)).isSome
  · rw [processUrl_skip web fs' u hex]
    exact ⟨rfl, rfl⟩
  · have hfs : fs (outName u) = none := by
      cases hc : fs (outName u) with
      | none => rfl
      | some c =>
        exact absurd (hext _ c (processUrl_preserves web fs u _ c hc) ▸ rfl) hex
    have hfs' : fs' (outName u) = none := by
      cases hc : fs' (outName u) with
      | none => rfl
      | some c => rw [hc] at hex; exact absurd rfl hex
    have hscrape : scrape_nominee (web u) = none ∨ scrape_nominee (web u) = some "" := by
      cases hscr : scrape_nominee (web u) with
      | none => exact Or.inl rfl
      | some t =>
        by_cases ht : t = ""
        · exact Or.inr (ht ▸ rfl)
        · exfalso
          have hwrote : (processUrl web fs u).fs (outName u) = some t := by
            unfold processUrl
            rw [hfs]
            simp only [Option.isSome_none, Bool.false_eq_true, if_false, hscr, if_neg ht]
            show fsWrite fs (outName u) t (outName u) = some t
            unfold fsWrite
            simp
          have := hext _ t hwrote
          rw [hfs'] at this
          exact Option.noConfusion this
    unfold processUrl
    rw [hfs']
    rcases hscrape with hs | hs <;> simp [hs]

/-- Running the main loop a second time, starting from the files the first
run produced, writes nothing and leaves the files unchanged. -/
lemma mainLoop_idem (web : String → PageResult) (urls : List String) :
    ∀ fs : FS,
      (mainLoop web (mainLoop web fs urls).fs urls).fs = (mainLoop web fs urls).fs ∧
      (mainLoop web (mainLoop web fs urls).fs urls).written = [] := by
  induction urls with
  | nil => intro fs; exact ⟨rfl, rfl⟩
  | cons u rest ih =>
    intro fs
    have hfirst := mainLoop_cons web fs u rest
    set s := processUrl web fs u with hs
    set r := mainLoop web s.fs rest with hr
    have hstable : (processUrl web r.fs u).fs = r.fs ∧ (processUrl web r.fs u).wrote = false :=
      processUrl_stable web fs r.fs u
        (fun n c h => mainLoop_preserves web rest s.fs n c h)
    have hsecond := mainLoop_cons web r.fs u rest
    have hfs1 : (mainLoop web fs (u :: rest)).fs = r.fs := by rw [hfirst]
    rw [hfs1, hsecond, hstable.1, hstable.2]
    have := ih s.fs
    constructor
    · exact this.1
    · simp only [if_neg (by simp : ¬False), Bool.false_eq_true, if_false, List.nil_append]
      exact this.2

/-! ## Helper lemmas about the link collector -/

lemma collectGo_cons_stop (links : Finset String) (clicked : List PageState)
    (st : PageState) (rest : List PageState) (h : st.loadMore ≠ some true) :
    collectGo links clicked (st :: rest) = (collectStep links st, clicked) := by
  unfold collectGo
  cases hlm : st.loadMore with
  | none => rfl
  | some b =>
    cases b with
    | false => rfl
    | true => exact absurd hlm h

lemma collectGo_cons_click (links : Finset String) (clicked : List PageState)
    (st : PageState) (rest : List PageState) (h : st.loadMore = some true) :
    collectGo links clicked (st :: rest) =
      collectGo (collectStep links st) (clicked ++ [st]) rest := by
  conv_lhs => rw [collectGo]
  rw [h]

lemma collectGo_clicked_visible (states : List PageState) :
    ∀ (links : Finset String) (clicked : List PageState),
      (∀ st ∈ clicked, st.loadMore = some true) →
      ∀ st ∈ (collectGo links clicked states).2, st.loadMore = some true := by
  induction states with
  | nil => intro links clicked h st hst; exact h st hst
  | cons s rest ih =>
    intro links clicked h st hst
    by_cases hlm : s.loadMore = some true
    · rw [collectGo_cons_click links clicked s rest hlm] at hst
      refine ih _ _ ?_ st hst
      intro st' hst'
      rcases List.mem_append.mp hst' with h1 | h2
      · exact h st' h1
      · rw [List.mem_singleton.mp h2]
        exact hlm
    · rw [collectGo_cons_stop links clicked s rest hlm] at hst
      exact h st hst

lemma mem_anchor_fold (anchors : List (Option String)) :
    ∀ (links : Finset String) (u : String),
      u ∈ anchors.foldl
        (fun acc oh =>
          match oh with
          | some h => if h = "" then acc else insert (absolutize h) acc
          | none => acc)
        links →
      u ∈ links ∨ ∃ h, some h ∈ anchors ∧ h ≠ "" ∧ u = absolutize h := by
  induction anchors with
  | nil => intro links u h; exact Or.inl h
  | cons a anchors ih =>
    intro links u h
    rw [List.foldl_cons] at h
    rcases ih _ u h with h1 | ⟨h0, hmem, hne, habs⟩
    · cases a with
      | none => exact Or.inl h1
      | some h0 =>
        have hred : (match some h0 with
            | some h => if h = "" then links else insert (absolutize h) links
            | none => links) = if h0 = "" then links else insert (absolutize h0) links := rfl
        rw [hred] at h1
        by_cases he : h0 = ""
        · rw [if_pos he] at h1
          exact Or.inl h1
        · rw [if_neg he] at h1
          rcases Finset.mem_insert.mp h1 with h2 | h3
          · exact Or.inr ⟨h0, List.mem_cons_self _ _, he, h2⟩
          · exact Or.inl h3
    · exact Or.inr ⟨h0, List.mem_cons_of_mem a hmem, hne, habs⟩

lemma mem_collectStep (st : PageState) (links : Finset String) (u : String)
    (h : u ∈ collectStep links st) :
    u ∈ links ∨ ∃ h0, some h0 ∈ st.anchors ∧ h0 ≠ "" ∧ u = absolutize h0 :=
  mem_anchor_fold st.anchors links u h

lemma mem_collectGo (states : List PageState) :
    ∀ (links : Finset String) (clicked : List PageState) (u : String),
      u ∈ (collectGo links clicked states).1 →
      u ∈ links ∨ ∃ st ∈ states, ∃ h0, some h0 ∈ st.anchors ∧ h0 ≠ "" ∧ u = absolutize h0 := by
  induction states with
  | nil => intro links clicked u h; exact Or.inl h
  | cons s rest ih =>
    intro links clicked u h
    by_cases hlm : s.loadMore = some true
    · rw [collectGo_cons_click links clicked s rest hlm] at h
      rcases ih _ _ u h with h1 | ⟨st, hst, h0, hmem, hne, habs⟩
      · rcases mem_collectStep s links u h1 with h2 | ⟨h0, hmem, hne, habs⟩
        · exact Or.inl h2
        · exact Or.inr ⟨s, List.mem_cons_self _ _, h0, hmem, hne, habs⟩
      · exact Or.inr ⟨st, List.mem_cons_of_mem s hst, h0, hmem, hne, habs⟩
    · rw [collectGo_cons_stop links clicked s rest hlm] at h
      rcases mem_collectStep s links u h with h2 | ⟨h0, hmem, hne, habs⟩
      · exact Or.inl h2
      · exact Or.inr ⟨s, List.mem_cons_self _ _, h0, hmem, hne, habs⟩

lemma anchor_fold_mono (anchors : List (Option String)) :
    ∀ (links : Finset String) (u : String), u ∈ links →
      u ∈ anchors.foldl
        (fun acc oh =>
          match oh with
          | some h => if h = "" then acc else insert (absolutize h) acc
          | none => acc)
        links := by
  induction anchors with
  | nil => intro links u h; exact h
  | cons a anchors ih =>
    intro links u h
    rw [List.foldl_cons]
    refine ih _ u ?_
    cases a with
    | none => exact h
    | some h0 =>
      have hred : (match some h0 with
          | some h => if h = "" then links else insert (absolutize h) links
          | none => links) = if h0 = "" then links else insert (absolutize h0) links := rfl
      rw [hred]
      by_cases he : h0 = ""
      · rw [if_pos he]
        exact h
      · rw [if_neg he]
        exact Finset.mem_insert_of_mem h

lemma anchor_fold_contains : ∀ (anchors : List (Option String)) (links : Finset String)
    (h0 : String), some h0 ∈ anchors → h0 ≠ "" →
      absolutize h0 ∈ anchors.foldl
        (fun acc oh =>
          match oh with
          | some h => if h = "" then acc else insert (absolutize h) acc
          | none => acc)
        links := by
  intro anchors
  induction anchors with
  | nil =>
    intro links h0 hmem _
    exact absurd hmem (List.not_mem_nil _)
  | cons a anchors ih =>
    intro links h0 hmem hne
    rw [List.foldl_cons]
    rcases List.mem_cons.mp hmem with h1 | h2
    · rw [← h1]
      have hred : (match some h0 with
          | some h => if h = "" then links else insert (absolutize h) links
          | none => links) = if h0 = "" then links else insert (absolutize h0) links := rfl
      rw [hred, if_neg hne]
      exact anchor_fold_mono anchors _ _ (Finset.mem_insert_self _ _)
    · exact ih _ h0 h2 hne

lemma collectStep_mono (links : Finset String) (st : PageState) (u : String)
    (h : u ∈ links) : u ∈ collectStep links st :=
  anchor_fold_mono st.anchors links u h

lemma collectStep_contains (links : Finset String) (st : PageState) (h0 : String)
    (hmem : some h0 ∈ st.anchors) (hne : h0 ≠ "") : absolutize h0 ∈ collectStep links st :=
  anchor_fold_contains st.anchors links h0 hmem hne

lemma collectGo_mono (states : List PageState) :
    ∀ (links : Finset String) (clicked : List PageState) (u : String),
      u ∈ links → u ∈ (collectGo links clicked states).1 := by
  induction states with
  | nil => intro links clicked u h; exact h
  | cons s rest ih =>
    intro links clicked u h
    by_cases hlm : s.loadMore = some true
    · rw [collectGo_cons_click links clicked s rest hlm]
      exact ih _ _ u (collectStep_mono links s u h)
    · rw [collectGo_cons_stop links clicked s rest hlm]
      exact collectStep_mono links s u h

/-- A truthy href scanned in a processed state (one whose predecessors all
had a clickable control) lands in the accumulated set. -/
lemma collectGo_contains : ∀ (pre : List PageState) (st : PageState) (rest : List PageState)
    (links : Finset String) (clicked : List PageState) (h0 : String),
      (∀ p ∈ pre, p.loadMore = some true) → some h0 ∈ st.anchors → h0 ≠ "" →
      absolutize h0 ∈ (collectGo links clicked (pre ++ st :: rest)).1 := by
  intro pre
  induction pre with
  | nil =>
    intro st rest links clicked h0 _ hmem hne
    rw [List.nil_append]
    by_cases hlm : st.loadMore = some true
    · rw [collectGo_cons_click links clicked st rest hlm]
      exact collectGo_mono rest _ _ _ (collectStep_contains links st h0 hmem hne)
    · rw [collectGo_cons_stop links clicked st rest hlm]
      exact collectStep_contains links st h0 hmem hne
  | cons p pre ih =>
    intro st rest links clicked h0 hall hmem hne
    have hp : p.loadMore = some true := hall p (List.mem_cons_self _ _)
    rw [List.cons_append, collectGo_cons_click links clicked p _ hp]
    exact ih st rest _ _ h0 (fun q hq => hall q (List.mem_cons_of_mem p hq)) hmem hne

/-! ## Claim theorems: link collector -/

/-- C6: the collector returns a sorted, duplicate-free list of absolute
URLs: every returned URL is the absolutized form (base-prefixed when
relative) of some truthy href collected from one of the rendered states,
and conversely a truthy href scanned in any processed state (one reached
because every earlier state had its control present and visible) is in the
result — so a link appearing in several pagination states occurs exactly
once: it is a member, and its count is one. -/
theorem collect_links_sorted_unique :
    ∀ states : List PageState,
      List.Sorted (fun a b => a ≤ b) (collect_all_nominee_links states) ∧
      (collect_all_nominee_links states).Nodup ∧
      (∀ u ∈ collect_all_nominee_links states, (collect_all_nominee_links states).count u = 1) ∧
      (∀ u ∈ collect_all_nominee_links states,
        ∃ st ∈ states, ∃ h0, some h0 ∈ st.anchors ∧ h0 ≠ "" ∧ u = absolutize h0) ∧
      (∀ (pre : List PageState) (st : PageState) (rest : List PageState) (h0 : String),
        states = pre ++ st :: rest → (∀ p ∈ pre, p.loadMore = some true) →
        some h0 ∈ st.anchors → h0 ≠ "" →
        absolutize h0 ∈ collect_all_nominee_links states) := by
  intro states
  refine ⟨Finset.sort_sorted _ _, Finset.sort_nodup _ _, ?_, ?_, ?_⟩
  · intro u hu
    exact List.count_eq_one_of_mem (Finset.sort_nodup _ _) hu
  · intro u hu
    rw [collect_all_nominee_links, Finset.mem_sort] at hu
    rcases mem_collectGo states ∅ [] u hu with h1 | h2
    · exact absurd h1 (Finset.not_mem_empty u)
    · exact h2
  · intro pre st rest h0 heq hall hmem hne
    rw [collect_all_nominee_links, Finset.mem_sort, heq]
    exact collectGo_contains pre st rest ∅ [] h0 hall hmem hne

/-- Witness for C6 on a two-state listing: the same relative href appears
in both rendered states (the first state's control is clicked, so the
second is processed), and the resulting absolute URL is in the result with
count one. -/
theorem collect_links_sorted_unique_witness :
    ([(⟨[some "/nominee/a/"], some true⟩ : PageState), ⟨[some "/nominee/a/"], none⟩] =
        [(⟨[some "/nominee/a/"], some true⟩ : PageState)] ++
          (⟨[some "/nominee/a/"], none⟩ : PageState) :: []) ∧
    (∀ p ∈ [(⟨[some "/nominee/a/"], some true⟩ : PageState)], p.loadMore = some true) ∧
    some "/nominee/a/" ∈ (⟨[some "/nominee/a/"], none⟩ : PageState).anchors ∧
    some "/nominee/a/" ∈ (⟨[some "/nominee/a/"], some true⟩ : PageState).anchors ∧
    ("/nominee/a/" : String) ≠ "" ∧
    absolutize "/nominee/a/" ∈ collect_all_nominee_links
      [⟨[some "/nominee/a/"], some true⟩, ⟨[some "/nominee/a/"], none⟩] ∧
    "https://afj.org/nominee/a/" ∈ collect_all_nominee_links
      [⟨[some "/nominee/a/"], some true⟩, ⟨[some "/nominee/a/"], none⟩] ∧
    (collect_all_nominee_links
      [⟨[some "/nominee/a/"], some true⟩, ⟨[some "/nominee/a/"], none⟩]).count
        "https://afj.org/nominee/a/" = 1 := by
  have hmem : "https://afj.org/nominee/a/" ∈ collect_all_nominee_links
      [⟨[some "/nominee/a/"], some true⟩, ⟨[some "/nominee/a/"], none⟩] := by
    rw [collect_all_nominee_links, Finset.mem_sort]
    decide
  exact ⟨rfl, by decide, by decide, by decide, by decide,
    (collect_links_sorted_unique
        [⟨[some "/nominee/a/"], some true⟩, ⟨[some "/nominee/a/"], none⟩]).2.2.2.2
      [⟨[some "/nominee/a/"], some true⟩] ⟨[some "/nominee/a/"], none⟩ [] "/nominee/a/"
      rfl (by decide) (by decide) (by decide),
    hmem,
    (collect_links_sorted_unique
        [⟨[some "/nominee/a/"], some true⟩, ⟨[some "/nominee/a/"], none⟩]).2.2.1 _ hmem⟩

/-- C9: the load-more control is clicked only in iterations where it is
present and visible; an iteration that finds it absent or hidden returns
the links collected so far without clicking, as a normal value rather than
an error. -/
theorem load_more_clicked_only_when_visible :
    ∀ states : List PageState,
      (∀ st ∈ (collectGo ∅ [] states).2, st.loadMore = some true) ∧
      (∀ (links : Finset String) (clicked : List PageState) (st : PageState)
          (rest : List PageState), st.loadMore ≠ some true →
            collectGo links clicked (st :: rest) = (collectStep links st, clicked)) :=
  fun states =>
    ⟨collectGo_clicked_visible states ∅ []
        (fun st h => absurd h (List.not_mem_nil st)),
      fun links clicked st rest h => collectGo_cons_stop links clicked st rest h⟩

/-- Witness for C9 at a present-but-hidden control. -/
theorem load_more_clicked_only_when_visible_witness :
    ((⟨[], some false⟩ : PageState).loadMore ≠ some true) ∧
    collectGo ∅ [] [⟨[], some false⟩] = (collectStep ∅ ⟨[], some false⟩, []) :=
  ⟨by decide,
    (load_more_clicked_only_when_visible [⟨[], some false⟩]).2 ∅ [] ⟨[], some false⟩ []
      (by decide)⟩

/-! ## Helper lemmas about the text normalizer -/

lemma head?_dropWhile_false {α} (p : α → Bool) :
    ∀ (l : List α) (c : α), (l.dropWhile p).head? = some c → p c = false := by
  intro l
  induction l with
  | nil => intro c h; exact Option.noConfusion h
  | cons a l ih =>
    intro c h
    rw [List.dropWhile_cons] at h
    by_cases hpa : p a
    · rw [if_pos hpa] at h
      exact ih c h
    · rw [if_neg hpa] at h
      simp only [List.head?_cons, Option.some.injEq] at h
      rw [← h]
      exact Bool.eq_false_iff.mpr hpa

lemma data_ne_nil {s : String} (h : s ≠ "") : s.data ≠ [] := by
  intro hd
  exact h (String.ext hd)

lemma getLast?_pyStrip (s : String) (c : Char)
    (h : (pyStrip s).data.getLast? = some c) : c.isWhitespace = false := by
  unfold pyStrip at h
  rw [show (String.mk ((s.data.dropWhile Char.isWhitespace).reverse.dropWhile
      Char.isWhitespace).reverse).data =
      ((s.data.dropWhile Char.isWhitespace).reverse.dropWhile Char.isWhitespace).reverse
    from rfl, List.getLast?_reverse] at h
  exact head?_dropWhile_false _ _ c h

lemma sepJoin_concat_data_getLast? (sep : String) :
    ∀ (ls : List String) (t : String), t ≠ "" →
      (sepJoin sep (ls ++ [t])).data.getLast? = t.data.getLast? := by
  intro ls
  induction ls with
  | nil => intro t _; rfl
  | cons x ls ih =>
    intro t ht
    have harm : sepJoin sep ((x :: ls) ++ [t]) = x ++ sep ++ sepJoin sep (ls ++ [t]) := by
      cases ls <;> rfl
    have hne : (sepJoin sep (ls ++ [t])).data ≠ [] := by
      intro hd
      have := ih t ht
      rw [hd] at this
      have hlast : t.data.getLast? = none := this.symm
      exact data_ne_nil ht (List.getLast?_eq_none_iff.mp hlast)
    rw [harm, String.data_append, List.getLast?_append_of_ne_nil _ hne]
    exact ih t ht

lemma getText_last_char (t : Tag) (c : Char)
    (h : (getText t).data.getLast? = some c) : c.isWhitespace = false := by
  unfold getText at h
  rcases List.eq_nil_or_concat' ((t.strings.map pyStrip).filter (fun s => s ≠ "")) with
    hnil | ⟨L, b, hLb⟩
  · rw [hnil] at h
    exact Option.noConfusion h
  · have hbmem : b ∈ (t.strings.map pyStrip).filter (fun s => s ≠ "") := by
      rw [hLb]
      exact List.mem_append.mpr (Or.inr (List.mem_singleton.mpr rfl))
    have hbfilter := List.mem_filter.mp hbmem
    have hb : b ≠ "" := by simpa using hbfilter.2
    rw [hLb, sepJoin_concat_data_getLast? " " L b hb] at h
    rcases List.mem_map.mp hbfilter.1 with ⟨s, _, hsb⟩
    rw [← hsb] at h
    exact getLast?_pyStrip s c h

/-- Every output line is either blank or ends in a non-whitespace character. -/
def goodLine (l : String) : Prop :=
  l = "" ∨ ∀ c, l.data.getLast? = some c → c.isWhitespace = false

lemma processTag_good (acc : List String) (t : Tag)
    (hacc : ∀ l ∈ acc, goodLine l) : ∀ l ∈ processTag acc t, goodLine l := by
  intro l hl
  unfold processTag at hl
  split at hl
  · exact hacc l hl
  · have hnew : ∀ m ∈ [getText t, ""], goodLine m := by
      intro m hm
      rcases List.mem_cons.mp hm with hm1 | hm2
      · exact Or.inr (fun c hc => getText_last_char t c (hm1 ▸ hc))
      · exact Or.inl (List.mem_singleton.mp hm2)
    split at hl
    · rcases List.mem_append.mp hl with h1 | h2
      · split at h1
        · exact hacc l h1
        · rcases List.mem_append.mp h1 with h3 | h4
          · exact hacc l h3
          · exact Or.inl (List.mem_singleton.mp h4)
      · exact hnew l h2
    · rcases List.mem_append.mp hl with h1 | h2
      · exact hacc l h1
      · exact hnew l h2

lemma foldl_processTag_good (ts : List Tag) :
    ∀ acc, (∀ l ∈ acc, goodLine l) → ∀ l ∈ ts.foldl processTag acc, goodLine l := by
  induction ts with
  | nil => intro acc hacc; exact hacc
  | cons t ts ih =>
    intro acc hacc
    exact ih (processTag acc t) (processTag_good acc t hacc)

lemma htmlLines_good (doc : List Tag) : ∀ l ∈ htmlLines doc, goodLine l := by
  intro l hl
  unfold htmlLines stripTrailingBlanks at hl
  rw [List.mem_reverse] at hl
  have hl2 := (List.dropWhile_sublist (fun s => s = "")).mem hl
  rw [List.mem_reverse] at hl2
  exact foldl_processTag_good (findAll doc) [] (by intro m hm; exact absurd hm (List.not_mem_nil m)) l hl2

lemma htmlLines_getLast?_ne_blank (doc : List Tag) (l : String)
    (h : (htmlLines doc).getLast? = some l) : l ≠ "" := by
  unfold htmlLines stripTrailingBlanks at h
  rw [List.getLast?_reverse] at h
  have := head?_dropWhile_false (fun s => s = "") _ l h
  exact of_decide_eq_false this

/-- C7: the normalizer output never ends in a whitespace character — in
particular it has no trailing blank lines and no trailing newline; an input
ending in an empty paragraph therefore ends at the last non-blank line. -/
theorem html_to_text_no_trailing_whitespace :
    ∀ (doc : List Tag) (c : Char),
      (html_to_text doc).data.getLast? = some c → c.isWhitespace = false := by
  intro doc c h
  unfold html_to_text at h
  rcases List.eq_nil_or_concat' (htmlLines doc) with hnil | ⟨L, b, hLb⟩
  · rw [hnil] at h
    exact Option.noConfusion h
  · have hb : b ≠ "" :=
      htmlLines_getLast?_ne_blank doc b (by rw [hLb]; exact List.getLast?_concat L)
    rw [hLb, sepJoin_concat_data_getLast? "\n" L b hb] at h
    have hgood : goodLine b :=
      htmlLines_good doc b (hLb ▸ List.mem_append.mpr (Or.inr (List.mem_singleton.mpr rfl)))
    rcases hgood with h1 | h2
    · exact absurd h1 hb
    · exact h2 c h

/-- Witness for C7 on a concrete fragment with a trailing empty paragraph. -/
theorem html_to_text_no_trailing_whitespace_witness :
    (html_to_text [⟨"p", ["Hi"]⟩, ⟨"p", ["  "]⟩]).data.getLast? = some 'i' ∧
    'i'.isWhitespace = false :=
  ⟨by decide, html_to_text_no_trailing_whitespace [⟨"p", ["Hi"]⟩, ⟨"p", ["  "]⟩] 'i' (by decide)⟩

/-- C8: a paragraph or heading element whose extracted text is empty after
collapsing and trimming contributes zero lines — deleting it from the
fragment leaves the normalizer output unchanged. -/
theorem empty_element_contributes_nothing :
    ∀ (pre post : List Tag) (t : Tag), getText t = "" →
      html_to_text (pre ++ t :: post) = html_to_text (pre ++ post) := by
  intro pre post t h
  have hskip : ∀ acc, processTag acc t = acc := by
    intro acc
    unfold processTag
    rw [h]
    simp
  unfold html_to_text htmlLines findAll
  rw [List.filter_append, List.filter_append, List.filter_cons]
  split
  · rw [List.foldl_append, List.foldl_cons, hskip, ← List.foldl_append]
  · rfl

/-- Witness for C8 at a concrete whitespace-only paragraph. -/
theorem empty_element_contributes_nothing_witness :
    getText ⟨"p", ["   "]⟩ = "" ∧
    html_to_text ([⟨"h2", ["T"]⟩] ++ ⟨"p", ["   "]⟩ :: [⟨"p", ["x"]⟩]) =
      html_to_text ([⟨"h2", ["T"]⟩] ++ [⟨"p", ["x"]⟩]) :=
  ⟨by decide,
    empty_element_contributes_nothing [⟨"h2", ["T"]⟩] [⟨"p", ["x"]⟩] ⟨"p", ["   "]⟩ (by decide)⟩

/-- C3: every exception raised inside the `try` block of `scrape_nominee`
(navigation, container lookup, extraction) is caught and turned into `none`,
a missing content container also yields `none`, and the function never
propagates an error to its caller. -/
theorem scrape_nominee_no_raise :
    (∀ e, scrape_nominee (PageResult.raise e) = none) ∧
    scrape_nominee PageResult.noContainer = none ∧
    (∀ pr e, scrapeBody pr = Except.error e → scrape_nominee pr = none) := by
  refine ⟨fun e => rfl, rfl, fun pr e h => ?_⟩
  cases pr with
  | raise e' => rfl
  | noContainer => rfl
  | container doc => exact Except.noConfusion h

/-- Witness for C3 at a concrete raised exception. -/
theorem scrape_nominee_no_raise_witness :
    scrapeBody (PageResult.raise PyError.timeout) = Except.error PyError.timeout ∧
    scrape_nominee (PageResult.raise PyError.timeout) = none :=
  ⟨rfl, scrape_nominee_no_raise.2.2 (PageResult.raise PyError.timeout) PyError.timeout rfl⟩

/-- C10: when the content container is found but the normalizer returns the
empty string, `main` writes no file for that slug (the `if text:` test is
false for the empty string exactly as for `None`), the step behaves
identically to a missing container, and the URL is still visited — so with
the file still absent it will be re-attempted by any later run. -/
theorem empty_text_treated_as_absent :
    ∀ (web web2 : String → PageResult) (fs : FS) (url : String) (doc : List Tag),
      web url = PageResult.container doc → html_to_text doc = "" →
      fs (outName url) = none → web2 url = PageResult.noContainer →
      processUrl web fs url = ⟨fs, false, true⟩ ∧
      processUrl web fs url = processUrl web2 fs url := by
  intro web web2 fs url doc hw ht hf hw2
  have h1 : processUrl web fs url = ⟨fs, false, true⟩ := by
    unfold processUrl
    rw [hf]
    simp only [Option.isSome_none, Bool.false_eq_true, if_false]
    have : scrape_nominee (web url) = some "" := by
      simp [scrape_nominee, scrapeBody, hw, ht]
    rw [this]
    simp
  have h2 : processUrl web2 fs url = ⟨fs, false, true⟩ := by
    unfold processUrl
    rw [hf]
    simp only [Option.isSome_none, Bool.false_eq_true, if_false]
    have : scrape_nominee (web2 url) = none := by
      simp [scrape_nominee, scrapeBody, hw2]
    rw [this]
  exact ⟨h1, h1.trans h2.symm⟩

/-- Witness for C10 at a concrete empty container. -/
theorem empty_text_treated_as_absent_witness :
    html_to_text ([] : List Tag) = "" ∧
    (processUrl (fun _ => PageResult.container []) (fun _ => none) "u" =
        ⟨(fun _ => none), false, true⟩ ∧
      processUrl (fun _ => PageResult.container []) (fun _ => none) "u" =
        processUrl (fun _ => PageResult.noContainer) (fun _ => none) "u") :=
  ⟨rfl, empty_text_treated_as_absent (fun _ => PageResult.container [])
    (fun _ => PageResult.noContainer) (fun _ => none) "u" [] rfl rfl rfl rfl⟩

/-- C4: a URL whose output file already exists is skipped — no visit, no
write, no change to the files; existing file contents survive the whole
loop unchanged (so a file, once written, is never overwritten later in the
run nor by a later run); and a URL whose file exists is never visited. -/
theorem output_files_never_overwritten :
    ∀ (web : String → PageResult) (fs : FS) (urls : List String) (url n c : String),
      ((fs (outName url)).isSome = true → processUrl web fs url = ⟨fs, false, false⟩) ∧
      (fs n = some c → (mainLoop web fs urls).fs n = some c) ∧
      ((fs (outName url)).isSome = true → url ∉ (mainLoop web fs urls).visited) :=
  fun web fs urls url n c =>
    ⟨fun h => processUrl_skip web fs url h,
     fun h => mainLoop_preserves web urls fs n c h,
     fun h => mainLoop_not_visited web urls fs url h⟩

/-- Witness for C4 on a one-element worklist whose file already exists. -/
theorem output_files_never_overwritten_witness :
    (((fun _ => some "x") : FS) (outName "u")).isSome = true ∧
    ((fun _ => some "x") : FS) "a" = some "x" ∧
    processUrl (fun _ => PageResult.noContainer) (fun _ => some "x") "u" =
      ⟨(fun _ => some "x"), false, false⟩ ∧
    (mainLoop (fun _ => PageResult.noContainer) (fun _ => some "x") ["u"]).fs "a" = some "x" ∧
    "u" ∉ (mainLoop (fun _ => PageResult.noContainer) (fun _ => some "x") ["u"]).visited :=
  ⟨rfl, rfl,
    (output_files_never_overwritten (fun _ => PageResult.noContainer)
      (fun _ => some "x") ["u"] "u" "a" "x").1 rfl,
    (output_files_never_overwritten (fun _ => PageResult.noContainer)
      (fun _ => some "x") ["u"] "u" "a" "x").2.1 rfl,
    (output_files_never_overwritten (fun _ => PageResult.noContainer)
      (fun _ => some "x") ["u"] "u" "a" "x").2.2 rfl⟩

/-- C5: running the full scrape twice against the same listing states and
the same profile pages leaves the files exactly as after the first run, and
the second run performs zero content writes. -/
theorem scrape_run_idempotent :
    ∀ (web : String → PageResult) (states : List PageState) (fs : FS),
      (runScrape web states (runScrape web states fs).fs).fs = (runScrape web states fs).fs ∧
      (runScrape web states (runScrape web states fs).fs).written = [] :=
  fun web states fs => mainLoop_idem web (collect_all_nominee_links states) fs

/-! ## Helper lemmas for heading spacing -/

lemma processTag_extend (acc : List String) (t : Tag) (h : acc ≠ []) :
    ∃ ext, processTag acc t = acc ++ ext := by
  unfold processTag
  have hne : acc.isEmpty = false := by simp [List.isEmpty_iff, h]
  by_cases he : getText t = ""
  · rw [if_pos he]
    exact ⟨[], (List.append_nil acc).symm⟩
  · rw [if_neg he]
    by_cases hh : isHeading t
    · refine ⟨"" :: [getText t, ""], ?_⟩
      rw [if_pos hh, if_neg (by simp [hne])]
      simp
    · rw [if_neg hh]
      exact ⟨[getText t, ""], rfl⟩

lemma foldl_processTag_extend (ts : List Tag) :
    ∀ acc, acc ≠ [] → ∃ ext, ts.foldl processTag acc = acc ++ ext := by
  induction ts with
  | nil => intro acc _; exact ⟨[], (List.append_nil acc).symm⟩
  | cons t ts ih =>
    intro acc h
    obtain ⟨e1, he1⟩ := processTag_extend acc t h
    obtain ⟨e2, he2⟩ := ih (processTag acc t)
      (by rw [he1]; exact fun hc => h (List.append_eq_nil.mp hc).1)
    exact ⟨e1 ++ e2, by rw [List.foldl_cons, he2, he1, List.append_assoc]⟩

lemma dropWhile_append_not {α} (p : α → Bool) (x : α) (hx : p x = false) :
    ∀ (u v : List α), (u ++ x :: v).dropWhile p = u.dropWhile p ++ x :: v := by
  intro u
  induction u with
  | nil => intro v; simp [List.dropWhile_cons, hx]
  | cons a u ih =>
    intro v
    rw [List.cons_append, List.dropWhile_cons, List.dropWhile_cons]
    by_cases hpa : p a
    · simp only [hpa, if_true]
      exact ih v
    · simp [hpa]

lemma stripTrailingBlanks_mid (Q tail : List String) (x : String) (hx : x ≠ "") :
    stripTrailingBlanks (Q ++ x :: tail) = Q ++ x :: stripTrailingBlanks tail := by
  unfold stripTrailingBlanks
  have h1 : (Q ++ x :: tail).reverse = tail.reverse ++ x :: Q.reverse := by
    rw [List.reverse_append, List.reverse_cons, List.append_assoc]
    rfl
  rw [h1, dropWhile_append_not (fun s => s = "") x (by simp [hx]) tail.reverse Q.reverse]
  rw [List.reverse_append, List.reverse_cons, List.reverse_reverse, List.append_assoc]
  rfl

lemma processTag_heading_nil (t : Tag) (hh : isHeading t = true) (ht : getText t ≠ "") :
    processTag [] t = [getText t, ""] := by
  unfold processTag
  rw [if_neg ht, if_pos hh]
  rfl

lemma processTag_heading (acc : List String) (t : Tag) (hh : isHeading t = true)
    (ht : getText t ≠ "") (hne : acc ≠ []) :
    processTag acc t = acc ++ "" :: [getText t, ""] := by
  unfold processTag
  rw [if_neg ht, if_pos hh, if_neg (by simp [List.isEmpty_iff, hne])]
  simp

/-! ## Claim theorems: heading spacing -/

/-- C1 counterexample: two consecutive non-empty headings are separated by
two blank lines, not by the single blank line the claim states. -/
theorem heading_pair_counterexample :
    html_to_text [⟨"h2", ["A"]⟩, ⟨"h2", ["B"]⟩] = "A\n\n\nB" ∧
    html_to_text [⟨"h2", ["A"]⟩, ⟨"h2", ["B"]⟩] ≠ "A\n\nB" :=
  ⟨by decide, by decide⟩

/-- C1 amended: whenever two headings with non-empty text are consecutive
among the selected elements, the output lines contain the first heading
line followed by exactly two blank lines and then the second heading line
(the blank emitted after the first heading plus the blank emitted before
the second). -/
theorem heading_pair_two_blank_lines :
    ∀ (doc pre post : List Tag) (t1 t2 : Tag),
      findAll doc = pre ++ t1 :: t2 :: post →
      isHeading t1 = true → isHeading t2 = true →
      getText t1 ≠ "" → getText t2 ≠ "" →
      ∃ i rest, (htmlLines doc).drop i =
        getText t1 :: "" :: "" :: getText t2 :: rest := by
  intro doc pre post t1 t2 hfa hh1 hh2 ht1 ht2
  have hraw0 : (findAll doc).foldl processTag [] =
      post.foldl processTag (processTag (processTag (pre.foldl processTag []) t1) t2) := by
    rw [hfa, List.foldl_append, List.foldl_cons, List.foldl_cons]
  obtain ⟨Pfx, hA1⟩ :
      ∃ Pfx, processTag (pre.foldl processTag []) t1 = Pfx ++ [getText t1, ""] := by
    by_cases hA0 : pre.foldl processTag [] = []
    · exact ⟨[], by rw [hA0, processTag_heading_nil t1 hh1 ht1]; rfl⟩
    · exact ⟨(pre.foldl processTag []) ++ [""],
        by rw [processTag_heading _ t1 hh1 ht1 hA0]; simp⟩
  have hA1ne : processTag (pre.foldl processTag []) t1 ≠ [] := by
    rw [hA1]
    simp
  have hA2 : processTag (processTag (pre.foldl processTag []) t1) t2 =
      (processTag (pre.foldl processTag []) t1) ++ "" :: [getText t2, ""] :=
    processTag_heading _ t2 hh2 ht2 hA1ne
  have hA2ne : processTag (processTag (pre.foldl processTag []) t1) t2 ≠ [] := by
    rw [hA2]
    simp
  obtain ⟨ext, hext⟩ := foldl_processTag_extend post _ hA2ne
  have hshape : (findAll doc).foldl processTag [] =
      (Pfx ++ [getText t1, "", ""]) ++ getText t2 :: ("" :: ext) := by
    rw [hraw0, hext, hA2, hA1]
    simp [List.append_assoc]
  have hlines : htmlLines doc =
      (Pfx ++ [getText t1, "", ""]) ++ getText t2 :: stripTrailingBlanks ("" :: ext) := by
    unfold htmlLines
    rw [hshape, stripTrailingBlanks_mid _ _ _ ht2]
  have hlines2 : htmlLines doc =
      Pfx ++ (getText t1 :: "" :: "" :: getText t2 :: stripTrailingBlanks ("" :: ext)) := by
    rw [hlines]
    simp [List.append_assoc]
  exact ⟨Pfx.length, stripTrailingBlanks ("" :: ext),
    by rw [hlines2]; exact List.drop_left _ _⟩

/-- Witness for the amended C1 on a concrete pair of headings. -/
theorem heading_pair_two_blank_lines_witness :
    findAll [⟨"h2", ["A"]⟩, ⟨"h2", ["B"]⟩] =
        [] ++ (⟨"h2", ["A"]⟩ : Tag) :: (⟨"h2", ["B"]⟩ : Tag) :: [] ∧
    isHeading ⟨"h2", ["A"]⟩ = true ∧ isHeading ⟨"h2", ["B"]⟩ = true ∧
    getText ⟨"h2", ["A"]⟩ ≠ "" ∧ getText ⟨"h2", ["B"]⟩ ≠ "" ∧
    ∃ i rest, (htmlLines [⟨"h2", ["A"]⟩, ⟨"h2", ["B"]⟩]).drop i =
      getText ⟨"h2", ["A"]⟩ :: "" :: "" :: getText ⟨"h2", ["B"]⟩ :: rest :=
  ⟨by decide, by decide, by decide, by decide, by decide,
    heading_pair_two_blank_lines [⟨"h2", ["A"]⟩, ⟨"h2", ["B"]⟩] [] [] ⟨"h2", ["A"]⟩
      ⟨"h2", ["B"]⟩ (by decide) (by decide) (by decide) (by decide) (by decide)⟩

/-! ## Helper lemmas about the regex matcher -/

lemma slashDollar_true (cs : List Char) (h : slashDollar cs = true) :
    cs = [] ∨ cs = ['/'] ∨ cs = ['\n'] ∨ cs = ['/', '\n'] := by
  match cs with
  | [] => exact Or.inl rfl
  | [x] =>
    by_cases hn : x = '\n'
    · exact Or.inr (Or.inr (Or.inl (by rw [hn])))
    · by_cases hs : x = '/'
      · exact Or.inr (Or.inl (by rw [hs]))
      · rw [show slashDollar [x] = false by simp [slashDollar, dollarMatch, hn, hs]] at h
        exact Bool.noConfusion h
  | [x, y] =>
    by_cases hs : x = '/'
    · by_cases hn : y = '\n'
      · exact Or.inr (Or.inr (Or.inr (by rw [hs, hn])))
      · rw [show slashDollar [x, y] = false by simp [slashDollar, dollarMatch, hn]] at h
        exact Bool.noConfusion h
    · rw [show slashDollar [x, y] = false by simp [slashDollar, dollarMatch, hs]] at h
      exact Bool.noConfusion h
  | x :: y :: z :: rest =>
    rw [show slashDollar (x :: y :: z :: rest) = false by
      simp [slashDollar, dollarMatch]] at h
    exact Bool.noConfusion h

lemma matchGroup_some : ∀ (cs g : List Char), matchGroup cs = some g →
    ∃ r, cs = g ++ r ∧ (r = [] ∨ r = ['/'] ∨ r = ['\n'] ∨ r = ['/', '\n']) ∧
      g ≠ [] ∧ '/' ∉ g := by
  intro cs
  induction cs with
  | nil => intro g h; exact Option.noConfusion h
  | cons c cs ih =>
    intro g h
    unfold matchGroup at h
    by_cases hc : c = '/'
    · rw [if_pos hc] at h
      exact Option.noConfusion h
    · rw [if_neg hc] at h
      cases hmg : matchGroup cs with
      | some g' =>
        rw [hmg] at h
        have hg : g = c :: g' := (Option.some.injEq _ _ ▸ h).symm
        obtain ⟨r, hcs, hr, hgne, hgs⟩ := ih g' hmg
        refine ⟨r, by rw [hg, hcs]; rfl, hr, by simp [hg], ?_⟩
        rw [hg]
        intro hmem
        rcases List.mem_cons.mp hmem with h1 | h2
        · exact hc h1.symm
        · exact hgs h2
      | none =>
        rw [hmg] at h
        by_cases hsd : slashDollar cs = true
        · rw [if_pos hsd] at h
          have hg : g = [c] := (Option.some.injEq _ _ ▸ h).symm
          refine ⟨cs, by rw [hg]; rfl, slashDollar_true cs hsd, by simp [hg], ?_⟩
          rw [hg]
          intro hmem
          exact hc (List.mem_singleton.mp hmem).symm
        · rw [if_neg hsd] at h
          exact Option.noConfusion h

lemma matchGroup_none (rem : List Char) (h1 : '/' ∈ rem.dropLast)
    (h2 : ∀ c, rem.getLast? = some c → c ≠ '\n') : matchGroup rem = none := by
  cases hmg : matchGroup rem with
  | none => rfl
  | some g =>
    exfalso
    obtain ⟨r, hcs, hr, _, hgs⟩ := matchGroup_some rem g hmg
    rcases hr with hr | hr | hr | hr
    · rw [hcs, hr, List.append_nil] at h1
      exact hgs ((List.dropLast_sublist g).mem h1)
    · rw [hcs, hr, List.dropLast_concat] at h1
      exact hgs h1
    · refine h2 '\n' ?_ rfl
      rw [hcs, hr]
      exact List.getLast?_concat g
    · refine h2 '\n' ?_ rfl
      rw [hcs, hr, show g ++ ['/', '\n'] = (g ++ ['/']) ++ ['\n'] by simp]
      exact List.getLast?_concat _

lemma matchGroup_all_nonslash : ∀ (seg : List Char), seg ≠ [] → '/' ∉ seg →
    matchGroup seg = some seg := by
  intro seg
  induction seg with
  | nil => intro h _; exact absurd rfl h
  | cons c cs ih =>
    intro _ hs
    have hc : c ≠ '/' := fun h => hs (h ▸ List.mem_cons_self c cs)
    unfold matchGroup
    rw [if_neg hc]
    cases cs with
    | nil => rfl
    | cons d ds =>
      rw [ih (by simp) (fun h => hs (List.mem_cons_of_mem c h))]

lemma matchGroup_nonslash_slash : ∀ (seg : List Char), seg ≠ [] → '/' ∉ seg →
    matchGroup (seg ++ ['/']) = some seg := by
  intro seg
  induction seg with
  | nil => intro h _; exact absurd rfl h
  | cons c cs ih =>
    intro _ hs
    have hc : c ≠ '/' := fun h => hs (h ▸ List.mem_cons_self c cs)
    rw [List.cons_append]
    unfold matchGroup
    rw [if_neg hc]
    cases cs with
    | nil => rfl
    | cons d ds =>
      rw [ih (by simp) (fun h => hs (List.mem_cons_of_mem c h))]

lemma startsWithChars_append : ∀ (l x : List Char), startsWithChars l (l ++ x) = true := by
  intro l x
  induction l with
  | nil => rfl
  | cons a as ih => simp [startsWithChars, ih]

lemma tryNominee_hit (seg opt : List Char) (hne : seg ≠ []) (hs : '/' ∉ seg)
    (hopt : opt = [] ∨ opt = ['/']) :
    tryNominee (litNominee ++ (seg ++ opt)) = some seg := by
  unfold tryNominee
  rw [if_pos (startsWithChars_append litNominee (seg ++ opt)),
    show (litNominee ++ (seg ++ opt)).drop litNominee.length = seg ++ opt from
      List.drop_left _ _]
  rcases hopt with h | h
  · rw [h, List.append_nil]
    exact matchGroup_all_nonslash seg hne hs
  · rw [h]
    exact matchGroup_nonslash_slash seg hne hs

lemma rem_mid_slash (X : List Char) (hX : '/' ∈ X) (seg opt : List Char) (hne : seg ≠ [])
    (hopt : opt = [] ∨ opt = ['/']) : '/' ∈ (X ++ (seg ++ opt)).dropLast := by
  rcases hopt with h | h
  · rw [h, List.append_nil, List.dropLast_append_of_ne_nil X hne]
    exact List.mem_append.mpr (Or.inl hX)
  · rw [h, show X ++ (seg ++ ['/']) = (X ++ seg) ++ ['/'] by simp, List.dropLast_concat]
    exact List.mem_append.mpr (Or.inl hX)

lemma rem_last_not_newline (X seg opt : List Char) (hne : seg ≠ []) (hn : '\n' ∉ seg)
    (hopt : opt = [] ∨ opt = ['/']) :
    ∀ c, (X ++ (seg ++ opt)).getLast? = some c → c ≠ '\n' := by
  intro c hc
  rcases hopt with h | h
  · rw [h, List.append_nil, List.getLast?_append_of_ne_nil X hne] at hc
    exact fun he => hn (he ▸ List.mem_of_getLast?_eq_some hc)
  · rw [h, show X ++ (seg ++ ['/']) = (X ++ seg) ++ ['/'] by simp,
      List.getLast?_concat] at hc
    have hc2 : c = '/' := by
      injection hc with hc2
      exact hc2.symm
    rw [hc2]
    decide

lemma lit_drop_mem_slash (k : Nat) (hk : k ≤ 8) : '/' ∈ litNominee.drop k := by
  interval_cases k <;> decide

lemma tryNominee_miss (a₂ : List Char) (ha : a₂ ≠ []) (seg opt : List Char)
    (hne : seg ≠ []) (_hs : '/' ∉ seg) (hn : '\n' ∉ seg)
    (hopt : opt = [] ∨ opt = ['/']) :
    tryNominee (a₂ ++ (litNominee ++ (seg ++ opt))) = none := by
  unfold tryNominee
  by_cases hp : startsWithChars litNominee (a₂ ++ (litNominee ++ (seg ++ opt))) = true
  · rw [if_pos hp, List.drop_append_eq_append_drop]
    by_cases hbig : litNominee.length ≤ a₂.length
    · have hz : litNominee.length - a₂.length = 0 := Nat.sub_eq_zero_of_le hbig
      rw [hz, List.drop_zero, ← List.append_assoc]
      exact matchGroup_none _
        (rem_mid_slash _ (List.mem_append.mpr (Or.inr (by decide))) seg opt hne hopt)
        (rem_last_not_newline _ seg opt hne hn hopt)
    · have hsm : a₂.length ≤ litNominee.length := Nat.le_of_lt (Nat.lt_of_not_le hbig)
      rw [List.drop_eq_nil_of_le hsm, List.nil_append, List.drop_append_eq_append_drop]
      have hk9 : litNominee.length - a₂.length ≤ litNominee.length := Nat.sub_le _ _
      have hz : litNominee.length - a₂.length - litNominee.length = 0 :=
        Nat.sub_eq_zero_of_le hk9
      rw [hz, List.drop_zero]
      have hk8 : litNominee.length - a₂.length ≤ 8 := by
        have h1 : 1 ≤ a₂.length := List.length_pos.mpr ha
        have := Nat.sub_le_sub_left h1 litNominee.length
        simpa using this
      exact matchGroup_none _
        (rem_mid_slash _ (lit_drop_mem_slash _ hk8) seg opt hne hopt)
        (rem_last_not_newline _ seg opt hne hn hopt)
  · rw [if_neg hp]

lemma searchNominee_head (cs g : List Char) (h : tryNominee cs = some g) :
    searchNominee cs = some g := by
  cases cs with
  | nil =>
    rw [show tryNominee [] = none from rfl] at h
    exact Option.noConfusion h
  | cons c cs' =>
    unfold searchNominee
    rw [h]

lemma searchNominee_cons (c : Char) (cs : List Char) :
    searchNominee (c :: cs) =
      match tryNominee (c :: cs) with
      | some g => some g
      | none => searchNominee cs := rfl

lemma searchNominee_append (a b : List Char)
    (hmiss : ∀ a₁ a₂, a = a₁ ++ a₂ → a₂ ≠ [] → tryNominee (a₂ ++ b) = none) :
    searchNominee (a ++ b) = searchNominee b := by
  induction a with
  | nil => rfl
  | cons c a ih =>
    have hm : tryNominee ((c :: a) ++ b) = none := hmiss [] (c :: a) rfl (by simp)
    rw [List.cons_append] at hm ⊢
    rw [searchNominee_cons, hm]
    exact ih (fun a₁ a₂ h hne => hmiss (c :: a₁) a₂ (by rw [h, List.cons_append]) hne)

lemma searchNominee_shape (pre seg opt : List Char) (hne : seg ≠ []) (hs : '/' ∉ seg)
    (hn : '\n' ∉ seg) (hopt : opt = [] ∨ opt = ['/']) :
    searchNominee (pre ++ (litNominee ++ (seg ++ opt))) = some seg := by
  rw [searchNominee_append pre _
    (fun _ a₂ _ hne₂ => tryNominee_miss a₂ hne₂ seg opt hne hs hn hopt)]
  exact searchNominee_head _ seg (tryNominee_hit seg opt hne hs hopt)

/-! ## Helper lemmas about the slug fallback -/

lemma splitSlash_ne_nil : ∀ cs : List Char, splitSlash cs ≠ [] := by
  intro cs
  cases cs with
  | nil => simp [splitSlash]
  | cons c cs =>
    unfold splitSlash
    by_cases hc : c = '/'
    · rw [if_pos hc]
      simp
    · rw [if_neg hc]
      cases hs : splitSlash cs with
      | nil => simp
      | cons h t => simp

lemma splitSlash_cons (c : Char) (cs : List Char) :
    splitSlash (c :: cs) =
      if c = '/' then [] :: splitSlash cs
      else
        match splitSlash cs with
        | h :: t => (c :: h) :: t
        | [] => [[c]] := rfl

lemma splitSlash_append_slash (xs : List Char) :
    splitSlash (xs ++ ['/']) = splitSlash xs ++ [[]] := by
  induction xs with
  | nil => rfl
  | cons c xs ih =>
    rw [List.cons_append, splitSlash_cons, splitSlash_cons c xs]
    by_cases hc : c = '/'
    · rw [if_pos hc, if_pos hc, ih]
      rfl
    · rw [if_neg hc, if_neg hc, ih]
      obtain ⟨h0, t0, hsp⟩ : ∃ h0 t0, splitSlash xs = h0 :: t0 := by
        cases hs : splitSlash xs with
        | nil => exact absurd hs (splitSlash_ne_nil xs)
        | cons h0 t0 => exact ⟨h0, t0, rfl⟩
      rw [hsp]
      rfl

lemma filter_splitSlash_slashes :
    ∀ zs : List Char, (∀ c ∈ zs, c = '/') → ∀ ys : List Char,
      (splitSlash (ys ++ zs)).filter (fun p => p ≠ []) =
        (splitSlash ys).filter (fun p => p ≠ []) := by
  intro zs
  induction zs with
  | nil => intro _ ys; rw [List.append_nil]
  | cons c zs ih =>
    intro hz ys
    have hc : c = '/' := hz c (List.mem_cons_self _ _)
    rw [show ys ++ c :: zs = (ys ++ [c]) ++ zs by simp,
      ih (fun d hd => hz d (List.mem_cons_of_mem c hd)) (ys ++ [c]), hc,
      splitSlash_append_slash, List.filter_append]
    simp

lemma mem_takeWhile_slash : ∀ (l : List Char) (c : Char),
    c ∈ l.takeWhile (fun d => d = '/') → c = '/' := by
  intro l
  induction l with
  | nil =>
    intro c hc
    exact absurd hc (List.not_mem_nil c)
  | cons a l ih =>
    intro c hc
    by_cases ha : a = '/'
    · rw [List.takeWhile_cons, if_pos (by simp [ha])] at hc
      rcases List.mem_cons.mp hc with h1 | h2
      · exact h1.trans ha
      · exact ih c h2
    · rw [List.takeWhile_cons, if_neg (by simp [ha])] at hc
      exact absurd hc (List.not_mem_nil c)

lemma rstripSlash_decomp (cs : List Char) :
    ∃ zs, cs = rstripSlash cs ++ zs ∧ ∀ c ∈ zs, c = '/' := by
  refine ⟨(cs.reverse.takeWhile (fun c => c = '/')).reverse, ?_, ?_⟩
  · rw [rstripSlash, ← List.reverse_append, List.takeWhile_append_dropWhile,
      List.reverse_reverse]
  · intro c hc
    rw [List.mem_reverse] at hc
    exact mem_takeWhile_slash cs.reverse c hc

lemma slugify_fallback (url : String) (h : searchNominee url.data = none) (p : List Char)
    (hp : ((splitSlash url.data).filter (fun q => q ≠ [])).getLast? = some p) :
    slugify_name url = String.mk p := by
  unfold slugify_name
  rw [h]
  obtain ⟨zs, hcs, hz⟩ := rstripSlash_decomp url.data
  have heq := filter_splitSlash_slashes zs hz (rstripSlash url.data)
  rw [← hcs] at heq
  rw [← heq, hp]

lemma startsWithChars_lit_n (cs : List Char) (h : startsWithChars litNominee cs = true) :
    'n' ∈ cs := by
  match cs with
  | [] => exact absurd h (by decide)
  | [c] =>
    rw [show startsWithChars litNominee [c] = false from by
      simp [litNominee, startsWithChars]] at h
    exact Bool.noConfusion h
  | c :: d :: rest =>
    have hd : 'n' = d := by
      simp only [litNominee, startsWithChars, Bool.and_eq_true, decide_eq_true_eq] at h
      exact h.2.1
    exact List.mem_cons_of_mem c (by rw [hd]; exact List.mem_cons_self d rest)

lemma searchNominee_no_n : ∀ cs : List Char, 'n' ∉ cs → searchNominee cs = none := by
  intro cs
  induction cs with
  | nil => intro _; rfl
  | cons c cs ih =>
    intro h
    rw [searchNominee_cons]
    have ht : tryNominee (c :: cs) = none := by
      unfold tryNominee
      by_cases hp : startsWithChars litNominee (c :: cs) = true
      · exact absurd (startsWithChars_lit_n _ hp) h
      · rw [if_neg hp]
    rw [ht]
    exact ih (fun hm => h (List.mem_cons_of_mem c hm))

lemma splitSlash_covers : ∀ (cs : List Char) (c : Char), c ∈ cs → c ≠ '/' →
    ∃ p ∈ splitSlash cs, c ∈ p := by
  intro cs
  induction cs with
  | nil =>
    intro c hc _
    exact absurd hc (List.not_mem_nil c)
  | cons a cs ih =>
    intro c hc hne
    obtain ⟨h0, t0, hsp⟩ : ∃ h0 t0, splitSlash cs = h0 :: t0 := by
      cases hs : splitSlash cs with
      | nil => exact absurd hs (splitSlash_ne_nil cs)
      | cons h0 t0 => exact ⟨h0, t0, rfl⟩
    rcases List.mem_cons.mp hc with h1 | h2
    · subst h1
      refine ⟨c :: h0, ?_, List.mem_cons_self c h0⟩
      rw [splitSlash_cons, if_neg hne, hsp]
      exact List.mem_cons_self _ _
    · obtain ⟨p, hp, hcp⟩ := ih c h2 hne
      by_cases ha : a = '/'
      · refine ⟨p, ?_, hcp⟩
        rw [splitSlash_cons, if_pos ha]
        exact List.mem_cons_of_mem [] hp
      · rw [hsp] at hp
        rcases List.mem_cons.mp hp with hp1 | hp2
        · refine ⟨a :: h0, ?_, List.mem_cons_of_mem a (hp1 ▸ hcp)⟩
          rw [splitSlash_cons, if_neg ha, hsp]
          exact List.mem_cons_self _ _
        · refine ⟨p, ?_, hcp⟩
          rw [splitSlash_cons, if_neg ha, hsp]
          exact List.mem_cons_of_mem _ hp2

lemma slugify_no_segments (url : String)
    (h : (splitSlash url.data).filter (fun q => q ≠ []) = []) :
    slugify_name url = "unknown" := by
  have hall : ∀ c ∈ url.data, c = '/' := by
    intro c hc
    by_contra hne
    obtain ⟨p, hp, hcp⟩ := splitSlash_covers url.data c hc hne
    have hpne : p ≠ [] := fun h0 => List.not_mem_nil c (h0 ▸ hcp)
    have hmem : p ∈ (splitSlash url.data).filter (fun q => q ≠ []) :=
      List.mem_filter.mpr ⟨hp, by simpa using hpne⟩
    rw [h] at hmem
    exact List.not_mem_nil p hmem
  have hno : 'n' ∉ url.data := fun hn => absurd (hall 'n' hn) (by decide)
  unfold slugify_name
  rw [searchNominee_no_n url.data hno]
  obtain ⟨zs, hcs, hz⟩ := rstripSlash_decomp url.data
  have heq := filter_splitSlash_slashes zs hz (rstripSlash url.data)
  rw [← hcs] at heq
  rw [← heq, h]
  rfl

lemma slugify_shape (pre seg : String) (hne : seg ≠ "") (hs : '/' ∉ seg.data)
    (hn : '\n' ∉ seg.data) :
    slugify_name (pre ++ "/nominee/" ++ seg) = seg ∧
    slugify_name (pre ++ "/nominee/" ++ seg ++ "/") = seg := by
  have hsegne : seg.data ≠ [] := data_ne_nil hne
  have hd1 : (pre ++ "/nominee/" ++ seg).data =
      pre.data ++ (litNominee ++ (seg.data ++ [])) := by
    rw [String.data_append, String.data_append,
      show "/nominee/".data = litNominee from by decide]
    simp
  have hd2 : (pre ++ "/nominee/" ++ seg ++ "/").data =
      pre.data ++ (litNominee ++ (seg.data ++ ['/'])) := by
    rw [String.data_append, String.data_append, String.data_append,
      show "/nominee/".data = litNominee from by decide,
      show ("/" : String).data = ['/'] from by decide]
    simp
  constructor
  · unfold slugify_name
    rw [hd1, searchNominee_shape pre.data seg.data [] hsegne hs hn (Or.inl rfl)]
  · unfold slugify_name
    rw [hd2, searchNominee_shape pre.data seg.data ['/'] hsegne hs hn (Or.inr rfl)]

/-! ## Claim theorem: slug extraction -/

/-- C2: a URL ending in `/nominee/<slug>` (with or without a trailing
slash, for any ordinary slug: non-empty, no slash, no newline) yields that
slug; when the regex finds no match the slug is the last non-empty path
segment of the URL (the `rstrip("/")` is redundant for this); a URL with no
non-empty path segment yields the fallback constant `"unknown"`; and the
two concrete examples of the spec hold. -/
theorem slugify_name_spec :
    (∀ pre seg : String, seg ≠ "" → '/' ∉ seg.data → '\n' ∉ seg.data →
      slugify_name (pre ++ "/nominee/" ++ seg) = seg ∧
      slugify_name (pre ++ "/nominee/" ++ seg ++ "/") = seg) ∧
    (∀ (url : String) (p : List Char), searchNominee url.data = none →
      ((splitSlash url.data).filter (fun q => q ≠ [])).getLast? = some p →
      slugify_name url = String.mk p) ∧
    (∀ url : String, (splitSlash url.data).filter (fun q => q ≠ []) = [] →
      slugify_name url = "unknown") ∧
    slugify_name "https://example.org/nominee/katie-lane/" = "katie-lane" ∧
    slugify_name "https://example.org/foo/bar" = "bar" :=
  ⟨fun pre seg h1 h2 h3 => slugify_shape pre seg h1 h2 h3,
   fun url p h hp => slugify_fallback url h p hp,
   fun url h => slugify_no_segments url h,
   by decide, by decide⟩

/-- Witness for C2 at the two concrete URLs of the spec. -/
theorem slugify_name_spec_witness :
    (("katie-lane" : String) ≠ "" ∧ '/' ∉ ("katie-lane" : String).data ∧
      '\n' ∉ ("katie-lane" : String).data) ∧
    (slugify_name ("https://example.org" ++ "/nominee/" ++ "katie-lane") = "katie-lane" ∧
      slugify_name ("https://example.org" ++ "/nominee/" ++ "katie-lane" ++ "/") =
        "katie-lane") ∧
    searchNominee ("https://example.org/foo/bar" : String).data = none ∧
    ((splitSlash ("https://example.org/foo/bar" : String).data).filter
      (fun q => q ≠ [])).getLast? = some "bar".data ∧
    slugify_name "https://example.org/foo/bar" = String.mk "bar".data :=
  ⟨⟨by decide, by decide, by decide⟩,
   slugify_name_spec.1 "https://example.org" "katie-lane" (by decide) (by decide) (by decide),
   by decide, by decide,
   slugify_name_spec.2.1 "https://example.org/foo/bar" "bar".data (by decide) (by decide)⟩
